import Mathlib

/-!
Verification development for the biliSub repository.

Shallow embedding of the three core components described by the design
document and implemented in the repository:

* the strategy classifier (`src/bilisub/strategy.py`),
* the subtitle cleaner and bilingual aligner (`src/enhanced_bilisub.py`,
  `BiliSubDownloader.clean_subtitle` / `BiliSubDownloader.process_bilingual`),
* the content-addressed result cache (`src/bilisub/cache.py`) and the
  pipeline coordinator (`src/bilisub/api.py`).

Modelling conventions:

* Python `float` timestamps are embedded as `Rat`; every comparison the
  claims exercise (`0.5`, `0.75`, `0.99`, `3.01/4.0`) is exact in binary
  floating point, so the rational model agrees with the float code on them.
* Python `str` is `String`; `len` on `str` counts code points, matching
  `String.length`.
* `str.lower()` is embedded as ASCII lowering (`Char.toLower` mapped over
  the characters).  The keyword tables contain only ASCII and CJK
  characters, and CJK characters are fixed points of both Python's and
  this model's lowering.
-/

namespace BiliSub

/-- `startsWithChars pat l` decides whether `pat` is a leading run of `l`. -/
def startsWithChars : List Char → List Char → Bool
  | [], _ => true
  | _ :: _, [] => false
  | a :: as, b :: bs => a == b && startsWithChars as bs

/-- `occursInChars pat l` decides whether `pat` occurs contiguously in `l`;
this embeds Python's substring test `pat in l`. -/
def occursInChars (pat : List Char) : List Char → Bool
  | [] => startsWithChars pat []
  | c :: rest => startsWithChars pat (c :: rest) || occursInChars pat rest

/-- Python's `pat in hay` on strings. -/
def strContains (hay pat : String) : Bool :=
  occursInChars pat.data hay.data

/-- Embedding of Python `str.lower()` (ASCII range; CJK is unchanged in both). -/
def pyLower (s : String) : String :=
  String.mk (s.data.map Char.toLower)

/-! ## Strategy classifier (`src/bilisub/strategy.py`) -/

inductive Kind where
  | tutorial | slides | game | talk | vlog | movie | unknown
deriving DecidableEq

inductive Sampling where
  | uniform | scene
deriving DecidableEq

inductive PromptStyle where
  | slide_extractor | ui_extractor | scene_descriptor | generic
deriving DecidableEq

/-- The `Strategy` dataclass of `strategy.py`. -/
structure Strategy where
  kind : Kind
  sampling : Sampling
  frames_per_min : Int
  max_frames : Int
  vlm_prompt_style : PromptStyle
  language : String
deriving DecidableEq

/-- The CJK counter inside `_detect_language`:
`sum(1 for ch in text if '一' <= ch <= '鿿')`. -/
def cjkCount (text : String) : Nat :=
  text.data.countP (fun ch => 0x4e00 ≤ ch.toNat && ch.toNat ≤ 0x9fff)

/-- `_detect_language` of `strategy.py`. -/
def detect_language (text : String) (preferred : String) : String :=
  if preferred == "zh" || preferred == "en" then preferred
  else if 50 < cjkCount text then "zh" else "en"

/-- First keyword group of `decide_strategy` (tutorial). -/
def tutorial_keywords : List String :=
  ["教程", "步骤", "安装", "点击", "配置", "chapter", "lesson", "slide", "ppt", "目录"]

/-- Second keyword group of `decide_strategy` (slides). -/
def slides_keywords : List String :=
  ["ppt", "幻灯片", "slide", "presentation"]

/-- Third keyword group of `decide_strategy` (game). -/
def game_keywords : List String :=
  ["游戏", "击杀", "排位", "live", "match", "gameplay"]

/-- Fourth keyword group of `decide_strategy` (talk). -/
def talk_keywords : List String :=
  ["演讲", "访谈", "播客", "talk", "podcast", "interview"]

/-- Fifth keyword group of `decide_strategy` (vlog). -/
def vlog_keywords : List String :=
  ["vlog", "旅行", "日常", "记录"]

/-- Sixth keyword group of `decide_strategy` (movie). -/
def movie_keywords : List String :=
  ["电影", "剧情", "片段", "movie", "scene"]

/-- The inner `any_kw` helper of `decide_strategy`. -/
def any_kw (words : List String) (text : String) : Bool :=
  words.any (fun w => strContains text w)

/-- `decide_strategy` of `strategy.py`, branch for branch. -/
def decide_strategy (subtitles_text : String) (preferred_lang : String) : Strategy :=
  let text := pyLower subtitles_text
  let lang := detect_language subtitles_text preferred_lang
  if any_kw tutorial_keywords text then
    ⟨.tutorial, .uniform, 12, 80, .slide_extractor, lang⟩
  else if any_kw slides_keywords text then
    ⟨.slides, .uniform, 10, 70, .slide_extractor, lang⟩
  else if any_kw game_keywords text then
    ⟨.game, .uniform, 20, 120, .ui_extractor, lang⟩
  else if any_kw talk_keywords text then
    ⟨.talk, .uniform, 6, 60, .scene_descriptor, lang⟩
  else if any_kw vlog_keywords text then
    ⟨.vlog, .uniform, 8, 80, .scene_descriptor, lang⟩
  else if any_kw movie_keywords text then
    ⟨.movie, .uniform, 15, 100, .scene_descriptor, lang⟩
  else
    ⟨.unknown, .uniform, 10, 80, .generic, lang⟩

/-! ## Subtitle segments, cleaner and bilingual aligner (`src/enhanced_bilisub.py`) -/

/-- The `SubtitleSegment` dataclass.  The Python field `end` is a Lean
keyword and is embedded as `endTime`. -/
structure SubtitleSegment where
  start : Rat
  endTime : Rat
  content : String
  lang : String
  position : Int × Int := (0, 0)
  confidence : Rat := 1
  is_auto : Bool := false
deriving DecidableEq

/-- Python's `\s` on the ASCII range (regex whitespace class). -/
def pyIsSpace (c : Char) : Bool :=
  c == ' ' || c == '\t' || c == '\n' || c == '\r' || c == '\x0b' || c == '\x0c'

/-- The literal opener of the promo pattern `关注.*?获取更多精彩内容`. -/
def followKw : List Char := "关注".data

/-- The literal closer of the promo pattern. -/
def followLit : List Char := "获取更多精彩内容".data

/-- `(l.dropWhile p).length ≤ l.length`, stated for use in termination proofs. -/
theorem lengthDropWhileLe (p : Char → Bool) (l : List Char) :
    (l.dropWhile p).length ≤ l.length :=
  (List.dropWhile_sublist p).length_le

/-- Lazy scan for `followLit` as used by `.*?获取更多精彩内容`: returns the
remainder after the earliest occurrence of the literal, failing when a
newline intervenes (`.` does not match a newline). -/
def findLitAfter : List Char → Option (List Char)
  | [] => if startsWithChars followLit [] then some [] else none
  | c :: cs =>
    if startsWithChars followLit (c :: cs) then some ((c :: cs).drop followLit.length)
    else if c == '\n' then none else findLitAfter cs

theorem findLitAfter_length {l r : List Char} (h : findLitAfter l = some r) :
    r.length ≤ l.length := by
  induction l with
  | nil =>
    unfold findLitAfter at h
    split at h
    · simp_all
    · exact absurd h (by simp)
  | cons c cs ih =>
    unfold findLitAfter at h
    split at h
    · obtain rfl : (c :: cs).drop followLit.length = r := by simpa using h
      simp [List.length_drop]
    · split at h
      · exact absurd h (by simp)
      · exact le_trans (ih h) (by simp)

/-- `re.sub(r"关注.*?获取更多精彩内容", "", ·)`: leftmost, non-overlapping,
lazy matches removed. -/
def stripFollow (l : List Char) : List Char :=
  match l with
  | [] => []
  | c :: cs =>
    if startsWithChars followKw (c :: cs) then
      match h : findLitAfter ((c :: cs).drop followKw.length) with
      | some rest => stripFollow rest
      | none => c :: stripFollow cs
    else c :: stripFollow cs
termination_by l.length
decreasing_by
  · have h1 := findLitAfter_length h
    have h2 : followKw.length = 2 := rfl
    simp only [List.length_drop, List.length_cons] at h1 ⊢
    omega
  · simp
  · simp

/-- Scan used by `#.*?#`: given the characters after an opening `#`, find the
closing `#` on the same line and return the remainder after it. -/
def hashSpanEnd : List Char → Option (List Char)
  | [] => none
  | c :: cs => if c == '#' then some cs else if c == '\n' then none else hashSpanEnd cs

theorem hashSpanEnd_length {l r : List Char} (h : hashSpanEnd l = some r) :
    r.length ≤ l.length := by
  induction l with
  | nil => exact absurd h (by simp [hashSpanEnd])
  | cons c cs ih =>
    unfold hashSpanEnd at h
    split at h
    · obtain rfl : cs = r := by simpa using h
      simp
    · split at h
      · exact absurd h (by simp)
      · exact le_trans (ih h) (by simp)

/-- `re.sub(r"#.*?#", "", ·)`. -/
def stripHash (l : List Char) : List Char :=
  match l with
  | [] => []
  | c :: cs =>
    if c == '#' then
      match h : hashSpanEnd cs with
      | some rest => stripHash rest
      | none => c :: stripHash cs
    else c :: stripHash cs
termination_by l.length
decreasing_by
  · have h1 := hashSpanEnd_length h
    simp only [List.length_cons]
    omega
  · simp
  · simp

/-- Length bound for one removal step of the dash regex, used for termination. -/
theorem dashStepLength {l : List Char}
    (h : 2 ≤ ((l.dropWhile pyIsSpace).takeWhile (fun ch => ch == '—')).length) :
    (((l.dropWhile pyIsSpace).drop
        ((l.dropWhile pyIsSpace).takeWhile (fun ch => ch == '—')).length).dropWhile
          pyIsSpace).length < l.length := by
  have hsp : (l.dropWhile pyIsSpace).length ≤ l.length := lengthDropWhileLe _ _
  have hd : ((l.dropWhile pyIsSpace).takeWhile (fun ch => ch == '—')).length ≤
      (l.dropWhile pyIsSpace).length :=
    (List.takeWhile_sublist _).length_le
  have hfin := lengthDropWhileLe pyIsSpace
    ((l.dropWhile pyIsSpace).drop ((l.dropWhile pyIsSpace).takeWhile (fun ch => ch == '—')).length)
  simp only [List.length_drop] at hfin
  omega

/-- `re.sub(r"\s*—{2,}\s*", "", ·)` (`—` is U+2014). -/
def stripDashes (l : List Char) : List Char :=
  match l with
  | [] => []
  | c :: cs =>
    let sp := (c :: cs).dropWhile pyIsSpace
    let dashes := sp.takeWhile (fun ch => ch == '—')
    if 2 ≤ dashes.length then
      stripDashes ((sp.drop dashes.length).dropWhile pyIsSpace)
    else c :: stripDashes cs
termination_by l.length
decreasing_by
  · exact dashStepLength (by assumption)
  · simp

/-- `re.sub(r"\s+", " ", ·)`. -/
def collapseWs (l : List Char) : List Char :=
  match l with
  | [] => []
  | c :: cs =>
    if pyIsSpace c then ' ' :: collapseWs (cs.dropWhile pyIsSpace)
    else c :: collapseWs cs
termination_by l.length
decreasing_by
  · simp only [List.length_cons]
    exact Nat.lt_succ_of_le (lengthDropWhileLe _ _)
  · simp

/-- Python `str.strip()`. -/
def pyStrip (l : List Char) : List Char :=
  ((l.dropWhile pyIsSpace).reverse.dropWhile pyIsSpace).reverse

/-- The per-segment content pipeline of `clean_subtitle`: promo removal,
hashtag-span removal, dash-separator removal, whitespace collapse, strip. -/
def cleanContent (s : String) : String :=
  String.mk (pyStrip (collapseWs (stripDashes (stripHash (stripFollow s.data)))))

/-- First phase of `clean_subtitle`: clean each content, drop segments whose
cleaned content is empty. -/
def cleanSegments (segs : List SubtitleSegment) : List SubtitleSegment :=
  match segs with
  | [] => []
  | s :: rest =>
    let content := cleanContent s.content
    if content = "" then cleanSegments rest
    else { s with content := content } :: cleanSegments rest

/-- The merge condition of the second phase of `clean_subtitle`. -/
def mergeCond (prev curr : SubtitleSegment) : Prop :=
  curr.start - prev.endTime < 1/2 ∧ prev.content.length < 20 ∧ curr.content.length < 20

instance (prev curr : SubtitleSegment) : Decidable (mergeCond prev curr) := by
  unfold mergeCond; infer_instance

/-- Merging `curr` into `prev` (content joined by one space, end extended). -/
def combineSegs (prev curr : SubtitleSegment) : SubtitleSegment :=
  { prev with content := prev.content ++ " " ++ curr.content, endTime := curr.endTime }

/-- Second phase of `clean_subtitle`: the adjacent-short-segment merge loop. -/
def mergeAdjacent (prev : SubtitleSegment) : List SubtitleSegment → List SubtitleSegment
  | [] => [prev]
  | curr :: rest =>
    if mergeCond prev curr then mergeAdjacent (combineSegs prev curr) rest
    else prev :: mergeAdjacent curr rest

/-- `BiliSubDownloader.clean_subtitle`. -/
def clean_subtitle (segments : List SubtitleSegment) : List SubtitleSegment :=
  match cleanSegments segments with
  | [] => []
  | s :: rest => mergeAdjacent s rest

/-- The Python sort key `(start, end)` as a boolean total order. -/
def segLe (a b : SubtitleSegment) : Bool :=
  decide (a.start < b.start) || (decide (a.start = b.start) && decide (a.endTime ≤ b.endTime))

/-- Stable sort by `(start, end)` (Python `list.sort` is stable). -/
def sortSegs (l : List SubtitleSegment) : List SubtitleSegment :=
  l.mergeSort segLe

/-- `max(0, min(zh.end, en.end) - max(zh.start, en.start))`. -/
def overlapAmount (zh en : SubtitleSegment) : Rat :=
  max 0 (min zh.endTime en.endTime - max zh.start en.start)

/-- The pairing test of `process_bilingual`:
`zh_duration > 0 and overlap / zh_duration > 0.75`. -/
def overlapCond (zh en : SubtitleSegment) : Bool :=
  decide (0 < zh.endTime - zh.start) &&
    decide ((3 : Rat)/4 < overlapAmount zh en / (zh.endTime - zh.start))

/-- The inner `for en in en_segments: ... break` loop: first match wins. -/
def findMatchingEn (zh : SubtitleSegment) : List SubtitleSegment → Option SubtitleSegment
  | [] => none
  | en :: rest => if overlapCond zh en then some en else findMatchingEn zh rest

/-- One iteration of the outer merge loop of `process_bilingual`. -/
def alignOne (zh : SubtitleSegment) (ens : List SubtitleSegment) : SubtitleSegment :=
  match findMatchingEn zh ens with
  | some en => { zh with content := zh.content ++ "\n" ++ en.content }
  | none => zh

/-- `BiliSubDownloader.process_bilingual`. -/
def process_bilingual (segments : List SubtitleSegment) : List SubtitleSegment :=
  let zh := segments.filter (fun s => s.lang == "zh")
  let en := segments.filter (fun s => s.lang == "en")
  if zh.isEmpty || en.isEmpty then segments
  else (sortSegs zh).map (fun z => alignOne z (sortSegs en))

/-! ### Analysis devices for the cleaner

The following predicates are not part of the source; they describe the
normal form `clean_subtitle` leaves contents in, and the character class on
which the three removal regexes cannot fire. -/

/-- `c` can trigger none of the three removal regexes (`关注…`, `#…#`,
`\s*—{2,}\s*` need a `关`, a `#`, or a `—`). -/
def safeChar (c : Char) : Bool :=
  !(c == '#' || c == '—' || c == '关')

/-- Every character of the content is regex-inert. -/
def safeContent (s : String) : Bool :=
  s.data.all safeChar

/-- The head of the list, when present, is not regex whitespace. -/
def headNotSpace : List Char → Bool
  | [] => true
  | d :: _ => !(pyIsSpace d)

/-- Whitespace-normal form: every whitespace character is a `' '` that is
not followed by further whitespace. -/
def wsNormed : List Char → Bool
  | [] => true
  | c :: cs => (!(pyIsSpace c) || (c == ' ' && headNotSpace cs)) && wsNormed cs

/-- Both ends free of whitespace. -/
def endsOk (l : List Char) : Prop :=
  (∀ c, l.head? = some c → pyIsSpace c = false) ∧
  (∀ c, l.getLast? = some c → pyIsSpace c = false)

/-- The invariant of contents produced by `clean_subtitle` from safe
inputs: regex-inert, whitespace-normal, stripped, nonempty. -/
def GoodContent (s : String) : Prop :=
  s.data.all safeChar = true ∧ wsNormed s.data = true ∧ endsOk s.data ∧ s ≠ ""

/-! ## JSON values and the result cache (`src/bilisub/cache.py`)

Python dicts are embedded as association lists in insertion order with
unique keys; JSON serialisation/parsing (`json.dumps`/`json.loads`) round
trips on JSON-representable values, so a written file stores its `JVal`
directly, and a file whose bytes do not parse is the `corrupt` constructor. -/

inductive JVal where
  | jstr (s : String)
  | jnum (q : Rat)
  | jbool (b : Bool)
  | jnull
  | jarr (items : List JVal)
  | jobj (fields : List (String × JVal))
deriving Inhabited

/-- A Python dict with `str` keys, in insertion order. -/
abbrev PyDict := List (String × JVal)

/-- JSON string escaping (quote and backslash; the characters the pipeline
feeds through the hash never need the remaining escapes). -/
def jescape (s : String) : String :=
  String.mk (s.data.foldr
    (fun c acc =>
      if c == '"' then '\\' :: '"' :: acc
      else if c == '\\' then '\\' :: '\\' :: acc
      else c :: acc) [])

def jquote (s : String) : String := "\"" ++ jescape s ++ "\""

/-- `sorted(d.items())` as the CPython JSON encoder performs for
`sort_keys=True`; keys in a dict are unique, so comparison never reaches
the second tuple component and sorting by key alone is exact. -/
def sortFields (fs : List (String × JVal)) : List (String × JVal) :=
  fs.mergeSort (fun a b => decide (a.1 ≤ b.1))

/-- Recursive key-sorting of every object, as `json.dumps(·, sort_keys=True)`
serialises. -/
def jsortKeys : JVal → JVal
  | .jstr s => .jstr s
  | .jnum q => .jnum q
  | .jbool b => .jbool b
  | .jnull => .jnull
  | .jarr items => .jarr (items.attach.map (fun x => jsortKeys x.1))
  | .jobj fields =>
      .jobj (sortFields (fields.attach.map (fun x => (x.1.1, jsortKeys x.1.2))))
decreasing_by
  · have := List.sizeOf_lt_of_mem x.2
    simp only [JVal.jarr.sizeOf_spec]
    omega
  · have h1 := List.sizeOf_lt_of_mem x.2
    have h2 : sizeOf x.1.2 < sizeOf x.1 := by
      obtain ⟨⟨a, b⟩, hm⟩ := x
      simp only [Prod.mk.sizeOf_spec]
      omega
    simp only [JVal.jobj.sizeOf_spec]
    omega

/-- Serialisation with Python's default separators `", "` and `": "`
(`ensure_ascii=False`). -/
def jdump : JVal → String
  | .jstr s => jquote s
  | .jnum q => toString q
  | .jbool b => if b then "true" else "false"
  | .jnull => "null"
  | .jarr items =>
      "[" ++ String.intercalate ", " (items.attach.map (fun x => jdump x.1)) ++ "]"
  | .jobj fields =>
      "\x7b" ++
        String.intercalate ", "
          (fields.attach.map (fun x => jquote x.1.1 ++ ": " ++ jdump x.1.2)) ++
        "\x7d"
decreasing_by
  · have := List.sizeOf_lt_of_mem x.2
    simp only [JVal.jarr.sizeOf_spec]
    omega
  · have h1 := List.sizeOf_lt_of_mem x.2
    have h2 : sizeOf x.1.2 < sizeOf x.1 := by
      obtain ⟨⟨a, b⟩, hm⟩ := x
      simp only [Prod.mk.sizeOf_spec]
      omega
    simp only [JVal.jobj.sizeOf_spec]
    omega

/-- `_profile_hash` of `cache.py`: the SHA-1 digest (truncated to 12 hex
characters) of the canonical key-sorted serialisation.  The digest is a
deterministic function of the serialised string; it is modelled by the
canonical string itself, which preserves every equality proved here (no
claim asserts distinctness of hashes). -/
def profile_hash (profile : PyDict) : String :=
  jdump (jsortKeys (.jobj profile))

/-- Content of a cache file: a JSON value, or bytes `json.loads` rejects. -/
inductive FileContent where
  | good (v : JVal)
  | corrupt

/-- The per-subject cache directory: a key is `(bv_id, file name)`. -/
def Store := String × String → Option FileContent

/-- Overwrite-in-place file write. -/
def setFile (st : Store) (key : String × String) (v : FileContent) : Store :=
  fun k => if k = key then some v else st k

/-- `p.exists()` followed by `json.loads(p.read_text())` with the
`try/except` of the load functions: a missing or unparsable file is `none`. -/
def readJson (st : Store) (key : String × String) : Option JVal :=
  match st key with
  | none => none
  | some .corrupt => none
  | some (.good v) => some v

/-- The file name `f"result_{h}.json"`. -/
def resultName (h : String) : String := "result_" ++ h ++ ".json"

/-- The entry object `{"profile": profile, "data": payload}`. -/
def entryJson (profile : PyDict) (payload : JVal) : JVal :=
  .jobj [("profile", .jobj profile), ("data", payload)]

/-- Python dict lookup (`d[k]` / `d.get(k)`), keys unique. -/
def lookupField (fields : PyDict) (k : String) : Option JVal :=
  match fields with
  | [] => none
  | (k2, v) :: rest => if k2 == k then some v else lookupField rest k

/-- In-place replacement of the value at an existing key. -/
def setField (fields : PyDict) (k : String) (v : JVal) : PyDict :=
  match fields with
  | [] => []
  | (k2, w) :: rest => if k2 == k then (k2, v) :: rest else (k2, w) :: setField rest k v

/-- Python `h in lst` where `lst` holds JSON values and `h` is a string. -/
def jvalIsStr (v : JVal) (s : String) : Bool :=
  match v with
  | .jstr t => t == s
  | _ => false

/-- The `meta.json` update of `save_result`: re-read, defaulting on a
missing or corrupt file, then append the hash with set semantics.  A meta
file parsing to valid JSON that is not an object makes the Python raise
`AttributeError` after the two entry writes; that path is modelled as the
re-initialised default (no claim reads `meta.json`). -/
def metaAfterSave (old : Option FileContent) (h : String) : JVal :=
  let fields : PyDict :=
    match old with
    | some (.good (.jobj fs)) => fs
    | _ => [("profiles", .jarr [])]
  match lookupField fields "profiles" with
  | some (.jarr xs) =>
      if xs.any (fun v => jvalIsStr v h) then .jobj fields
      else .jobj (setField fields "profiles" (.jarr (xs ++ [.jstr h])))
  | some _ => .jobj fields
  | none => .jobj (fields ++ [("profiles", .jarr [.jstr h])])

/-- `save_result` of `cache.py`: write the profile-addressed entry, overwrite
the `latest` alias, update the meta index. -/
def save_result (bv_id : String) (profile : PyDict) (payload : JVal) (st : Store) : Store :=
  let h := profile_hash profile
  let entry := FileContent.good (entryJson profile payload)
  let st1 := setFile st (bv_id, resultName h) entry
  let st2 := setFile st1 (bv_id, "result_latest.json") entry
  setFile st2 (bv_id, "meta.json") (.good (metaAfterSave (st2 (bv_id, "meta.json")) h))

/-- `load_latest` of `cache.py`. -/
def load_latest (bv_id : String) (st : Store) : Option JVal :=
  readJson st (bv_id, "result_latest.json")

/-- `load_by_profile` of `cache.py`. -/
def load_by_profile (bv_id : String) (profile : PyDict) (st : Store) : Option JVal :=
  readJson st (bv_id, resultName (profile_hash profile))

/-! ## Pipeline coordinator (`src/bilisub/api.py`, `run_pipeline`)

External collaborators (subtitle file read, frame sampling, the VLM and
summarisation calls, frame-image writes) are modelled as oracle outcomes
carried in the input record; the subject-id resolution of
`utils.extract_bv_id`/`derive_bv_from_paths` is modelled as the resolved
`effective_bv` input. -/

/-- `bilisub.__version__` (imported from the package, not part of the core
sources; its value is irrelevant to every claim). -/
def PIPELINE_VERSION : String := "2.0"

/-- String form of a `Kind` as the Python dataclass stores it. -/
def kindStr : Kind → String
  | .tutorial => "tutorial"
  | .slides => "slides"
  | .game => "game"
  | .talk => "talk"
  | .vlog => "vlog"
  | .movie => "movie"
  | .unknown => "unknown"

def samplingStr : Sampling → String
  | .uniform => "uniform"
  | .scene => "scene"

def styleStr : PromptStyle → String
  | .slide_extractor => "slide_extractor"
  | .ui_extractor => "ui_extractor"
  | .scene_descriptor => "scene_descriptor"
  | .generic => "generic"

/-- Inputs of one `run_pipeline` call, with oracle outcomes for the external
collaborators. -/
structure RunInputs where
  video_path : Option String
  subs_read : Except String String
  provider : String
  vlm_model : String
  llm_model : String
  language : String
  max_frames : Int
  dry_run : Bool
  effective_bv : Option String
  cache_readonly : Bool
  refresh_cache : Bool
  sample_frames_res : Except String Nat
  vlm_res : Except String JVal
  summarize_res : Except String JVal
  save_frames_dir : Option String
  save_frames_res : Except String Unit

/-- The `profile` dict built by `run_pipeline`. -/
def buildProfile (inp : RunInputs) (strategy : Strategy) (effective_max : Int) : PyDict :=
  [("pipeline_version", .jstr PIPELINE_VERSION),
   ("provider", .jstr inp.provider),
   ("vlm_model", .jstr inp.vlm_model),
   ("llm_model", .jstr inp.llm_model),
   ("language", .jstr inp.language),
   ("strategy", .jobj
      [("kind", .jstr (kindStr strategy.kind)),
       ("sampling", .jstr (samplingStr strategy.sampling)),
       ("vlm_prompt_style", .jstr (styleStr strategy.vlm_prompt_style)),
       ("frames_per_min", .jnum strategy.frames_per_min),
       ("max_frames", .jnum effective_max)])]

/-- The `payload` dict built by `run_pipeline` on the execute path. -/
def buildPayload (inp : RunInputs) (strategy : Strategy) (effective_max : Int)
    (visual_notes summary : JVal) : JVal :=
  .jobj
    [("strategy", .jobj
        [("kind", .jstr (kindStr strategy.kind)),
         ("sampling", .jstr (samplingStr strategy.sampling)),
         ("frames_per_min", .jnum strategy.frames_per_min),
         ("max_frames", .jnum effective_max),
         ("vlm_prompt_style", .jstr (styleStr strategy.vlm_prompt_style)),
         ("language", .jstr strategy.language)]),
     ("summary", summary),
     ("visual_notes", visual_notes),
     ("meta", .jobj
        [("cache_hit", .jbool false),
         ("pipeline_version", .jstr PIPELINE_VERSION),
         ("cache_bv", match inp.effective_bv with
           | some bv => .jstr bv
           | none => .jnull)])]

/-- `dict.update` for one key: replace in place, else append. -/
def updateField (fields : PyDict) (k : String) (v : JVal) : PyDict :=
  match fields with
  | [] => [(k, v)]
  | (k2, w) :: rest => if k2 == k then (k2, v) :: rest else (k2, w) :: updateField rest k v

/-- `dict.update` with several keys. -/
def updateFields (fields : PyDict) : PyDict → PyDict
  | [] => fields
  | (k, v) :: rest => updateFields (updateField fields k v) rest

/-- The metadata written into a cache-hit payload. -/
def metaUpdates (bv : String) : PyDict :=
  [("cache_hit", .jbool true), ("cache_bv", .jstr bv),
   ("pipeline_version", .jstr PIPELINE_VERSION)]

/-- `out.setdefault("meta", dict()); out["meta"].update(...)` on a cache hit;
a non-dict payload or meta raises `AttributeError` in Python. -/
def tagCacheHit (out : JVal) (bv : String) : Except String JVal :=
  match out with
  | .jobj fields =>
      match lookupField fields "meta" with
      | some (.jobj ms) =>
          .ok (.jobj (setField fields "meta" (.jobj (updateFields ms (metaUpdates bv)))))
      | some _ => .error "AttributeError: update on non-dict meta"
      | none => .ok (.jobj (fields ++ [("meta", .jobj (updateFields [] (metaUpdates bv)))]))
  | _ => .error "AttributeError: setdefault on non-dict payload"

/-- `cached and isinstance(cached, dict) and "data" in cached`, yielding
`cached["data"]` when it holds. -/
def dictDataProbe (cached : Option JVal) : Option JVal :=
  match cached with
  | some (.jobj fields) =>
      if !fields.isEmpty && (lookupField fields "data").isSome then lookupField fields "data"
      else none
  | _ => none

/-- The frame-sampling step: a fatal precondition error when no video path
is given outside dry-run, otherwise the sampler collaborator's outcome
(number of frames, the images themselves being opaque to the claims). -/
def framesStage (inp : RunInputs) : Except String Nat :=
  if inp.dry_run then .ok 0
  else match inp.video_path with
    | none => .error "非 dry-run 模式下必须提供 video_path"
    | some _ => inp.sample_frames_res

/-- The `save_frames_dir` step (`if save_frames_dir and frames: img.save`);
writes go to the frame directory, not the cache store. -/
def framesSaveStage (inp : RunInputs) (nFrames : Nat) : Except String Unit :=
  match inp.save_frames_dir with
  | some _ => if 0 < nFrames then inp.save_frames_res else .ok ()
  | none => .ok ()

/-- The execute-and-persist tail of `run_pipeline` (after both cache probes
missed): frame sampling, VLM, summarisation, optional frame saving, and the
final `save_result` guarded by `effective_bv and not cache_readonly`. -/
def executeStage (inp : RunInputs) (st : Store) (strategy : Strategy)
    (effective_max : Int) (profile : PyDict) : Except String JVal × Store :=
  match framesStage inp with
  | .error e => (.error e, st)
  | .ok nFrames =>
    match inp.vlm_res with
    | .error e => (.error e, st)
    | .ok visual_notes =>
      match inp.summarize_res with
      | .error e => (.error e, st)
      | .ok summary =>
        let payload := buildPayload inp strategy effective_max visual_notes summary
        match framesSaveStage inp nFrames with
        | .error e => (.error e, st)
        | .ok _ =>
          match inp.effective_bv with
          | some bv =>
              if inp.cache_readonly then (.ok payload, st)
              else (.ok payload, save_result bv profile payload st)
          | none => (.ok payload, st)

/-- The coarse cache probe of `run_pipeline` (`load_latest`, skipped on
refresh), yielding the subject id together with the cached payload. -/
def quickProbe (inp : RunInputs) (st : Store) : Option (String × JVal) :=
  match inp.effective_bv with
  | some bv =>
    if inp.refresh_cache then none
    else match dictDataProbe (load_latest bv st) with
      | some out => some (bv, out)
      | none => none
  | none => none

/-- The precise cache probe of `run_pipeline` (`load_by_profile`). -/
def preciseProbe (inp : RunInputs) (st : Store) (profile : PyDict) :
    Option (String × JVal) :=
  match inp.effective_bv with
  | some bv =>
    if inp.refresh_cache then none
    else match dictDataProbe (load_by_profile bv profile st) with
      | some out => some (bv, out)
      | none => none
  | none => none

/-- `run_pipeline` of `api.py`: coarse cache probe, subtitle read, strategy
and profile, precise cache probe, then execution and persistence. -/
def run_pipeline (inp : RunInputs) (st : Store) : Except String JVal × Store :=
  match quickProbe inp st with
  | some (bv, out) => (tagCacheHit out bv, st)
  | none =>
    match inp.subs_read with
    | .error e => (.error e, st)
    | .ok subs_text =>
      let strategy := decide_strategy subs_text inp.language
      let effective_max := min inp.max_frames strategy.max_frames
      let profile := buildProfile inp strategy effective_max
      match preciseProbe inp st profile with
      | some (bv, out) => (tagCacheHit out bv, st)
      | none => executeStage inp st strategy effective_max profile

/-! ## Theorems: strategy classifier -/

/-- Every branch of `decide_strategy` carries the resolved language. -/
theorem decide_strategy_language (t p : String) :
    (decide_strategy t p).language = detect_language t p := by
  simp only [decide_strategy]
  repeat' split
  all_goals rfl

/-- A tutorial-group keyword hit fixes the whole strategy record. -/
theorem decide_strategy_eq_of_tutorial_kw {t : String} (p : String)
    (h : any_kw tutorial_keywords (pyLower t) = true) :
    decide_strategy t p =
      ⟨.tutorial, .uniform, 12, 80, .slide_extractor, detect_language t p⟩ := by
  simp only [decide_strategy]
  simp [h]

/-- C2.  Classifier totality: for every input text and preferred language,
`decide_strategy` returns a `Strategy` with `frames_per_min > 0` and
`max_frames > 0`.  The function is total by construction, the embedded
counterpart of "never raises". -/
theorem classifier_totality (t p : String) :
    0 < (decide_strategy t p).frames_per_min ∧ 0 < (decide_strategy t p).max_frames := by
  simp only [decide_strategy]
  repeat' split
  all_goals simp

/-- C4.  Keyword-group precedence: any text containing a tutorial-group
keyword (case-folded) classifies as `tutorial` with the tutorial row of the
lookup table (`frames_per_min = 12`, `max_frames = 80`,
`slide_extractor`), regardless of later groups also matching. -/
theorem keyword_group_precedence (t p : String)
    (h : any_kw tutorial_keywords (pyLower t) = true) :
    (decide_strategy t p).kind = .tutorial ∧
    (decide_strategy t p).frames_per_min = 12 ∧
    (decide_strategy t p).max_frames = 80 ∧
    (decide_strategy t p).vlm_prompt_style = .slide_extractor := by
  rw [decide_strategy_eq_of_tutorial_kw p h]
  exact ⟨rfl, rfl, rfl, rfl⟩

/-- Witness for C4 at the spec's example: a text containing both "安装"
(tutorial group) and "电影" (movie group). -/
theorem keyword_group_precedence_witness :
    any_kw tutorial_keywords (pyLower "安装电影") = true ∧
    (decide_strategy "安装电影" "auto").kind = .tutorial :=
  ⟨by decide, (keyword_group_precedence "安装电影" "auto" (by decide)).1⟩

/-- C5.  Language resolution: an explicit "zh"/"en" preference is returned
unchanged; otherwise the language is "zh" exactly when the CJK code-point
count exceeds 50. -/
theorem language_resolution (t p : String) :
    ((p = "zh" ∨ p = "en") → (decide_strategy t p).language = p) ∧
    (¬(p = "zh" ∨ p = "en") →
      (decide_strategy t p).language = if 50 < cjkCount t then "zh" else "en") := by
  have hl := decide_strategy_language t p
  constructor
  · rintro (rfl | rfl) <;> simp [hl, detect_language]
  · intro hp
    have h1 : p ≠ "zh" := fun he => hp (Or.inl he)
    have h2 : p ≠ "en" := fun he => hp (Or.inr he)
    simp [hl, detect_language, h1, h2]

/-- Witness for C5: explicit preference passes through; 51 CJK characters
resolve to "zh", 49 to "en". -/
theorem language_resolution_witness :
    (decide_strategy "hello" "zh").language = "zh" ∧
    (decide_strategy (String.mk (List.replicate 51 '中')) "auto").language = "zh" ∧
    (decide_strategy (String.mk (List.replicate 49 '中')) "auto").language = "en" := by
  refine ⟨(language_resolution "hello" "zh").1 (Or.inl rfl), ?_, ?_⟩
  · rw [(language_resolution (String.mk (List.replicate 51 '中')) "auto").2 (by decide)]
    decide
  · rw [(language_resolution (String.mk (List.replicate 49 '中')) "auto").2 (by decide)]
    decide

/-- C10.  "ppt" and "slide" also belong to the first (tutorial) keyword
group, so any text containing them (case-folded) classifies as `tutorial`,
never `slides`; `kind = slides` is reachable only through "幻灯片" or
"presentation" with no tutorial-group keyword present. -/
theorem slides_shadowed_by_tutorial (t p : String) :
    ((strContains (pyLower t) "ppt" = true ∨ strContains (pyLower t) "slide" = true) →
      (decide_strategy t p).kind = .tutorial) ∧
    ((decide_strategy t p).kind = .slides →
      (strContains (pyLower t) "幻灯片" = true ∨
        strContains (pyLower t) "presentation" = true) ∧
      any_kw tutorial_keywords (pyLower t) = false) := by
  constructor
  · intro h
    have hkw : any_kw tutorial_keywords (pyLower t) = true := by
      simp only [any_kw, tutorial_keywords, List.any_cons, List.any_nil, Bool.or_eq_true]
      tauto
    rw [decide_strategy_eq_of_tutorial_kw p hkw]
  · intro hk
    by_cases h1 : any_kw tutorial_keywords (pyLower t) = true
    · rw [decide_strategy_eq_of_tutorial_kw p h1] at hk
      exact absurd hk (by simp)
    · have h1f : any_kw tutorial_keywords (pyLower t) = false := by
        simpa using h1
      refine ⟨?_, h1f⟩
      by_cases h2 : any_kw slides_keywords (pyLower t) = true
      · simp only [any_kw, slides_keywords, List.any_cons, List.any_nil,
          Bool.or_eq_true] at h2
        simp only [any_kw, tutorial_keywords, List.any_cons, List.any_nil,
          Bool.or_eq_true] at h1
        tauto
      · exfalso
        simp only [decide_strategy] at hk
        simp only [h1f, h2, Bool.false_eq_true, if_false] at hk
        repeat' split at hk <;> simp_all

/-- Witness for C10: "ppt" classifies as tutorial; "presentation" is the
slides route and carries no tutorial keyword. -/
theorem slides_shadowed_by_tutorial_witness :
    (decide_strategy "ppt" "auto").kind = .tutorial ∧
    ((strContains (pyLower "presentation") "幻灯片" = true ∨
       strContains (pyLower "presentation") "presentation" = true) ∧
      any_kw tutorial_keywords (pyLower "presentation") = false) :=
  ⟨(slides_shadowed_by_tutorial "ppt" "auto").1 (Or.inl (by decide)),
   (slides_shadowed_by_tutorial "presentation" "auto").2 (by decide)⟩

/-! ## Theorems: result cache -/

/-- A profile-addressed file name is never the meta index (length 12 + |h|
versus 9). -/
theorem resultName_ne_meta (h : String) : resultName h ≠ "meta.json" := by
  intro he
  have hlen := congrArg String.length he
  rw [resultName, String.length_append, String.length_append] at hlen
  have h7 : "result_".length = 7 := rfl
  have h5 : ".json".length = 5 := rfl
  have h9 : "meta.json".length = 9 := rfl
  omega

/-- The latest alias is never the meta index. -/
theorem latest_ne_meta : "result_latest.json" ≠ "meta.json" := by decide

/-- C1.  Cache round-trip: after `save_result bv profile payload`, both
`load_by_profile bv profile` and `load_latest bv` return the saved entry
`{"profile": profile, "data": payload}`, hence a payload deep-equal to the
one saved. -/
theorem cache_round_trip (st : Store) (bv : String) (profile : PyDict) (payload : JVal) :
    load_by_profile bv profile (save_result bv profile payload st) =
      some (entryJson profile payload) ∧
    load_latest bv (save_result bv profile payload st) =
      some (entryJson profile payload) := by
  have h13 : ((bv, resultName (profile_hash profile)) : String × String) ≠ (bv, "meta.json") :=
    fun he => resultName_ne_meta _ (congrArg Prod.snd he)
  have h23 : ((bv, "result_latest.json") : String × String) ≠ (bv, "meta.json") :=
    fun he => latest_ne_meta (congrArg Prod.snd he)
  constructor
  · simp only [load_by_profile, save_result, readJson, setFile]
    rw [if_neg h13]
    by_cases h12 :
        ((bv, resultName (profile_hash profile)) : String × String) =
          (bv, "result_latest.json")
    · simp [h12]
    · simp [h12]
  · simp only [load_latest, save_result, readJson, setFile]
    rw [if_neg h23]
    simp

/-- C8.  Cache reads never fail hard: a missing or corrupt target file makes
`load_latest` and `load_by_profile` return `none` (the embedded counterpart
of "return absent rather than raising"). -/
theorem cache_reads_never_fail (st : Store) (bv : String) (profile : PyDict) :
    (st (bv, "result_latest.json") = none → load_latest bv st = none) ∧
    (st (bv, "result_latest.json") = some .corrupt → load_latest bv st = none) ∧
    (st (bv, resultName (profile_hash profile)) = none →
      load_by_profile bv profile st = none) ∧
    (st (bv, resultName (profile_hash profile)) = some .corrupt →
      load_by_profile bv profile st = none) := by
  refine ⟨?_, ?_, ?_, ?_⟩ <;> intro h <;>
    simp [load_latest, load_by_profile, readJson, h]

/-- Witness for C8 on a concrete empty store and a concrete corrupt store. -/
theorem cache_reads_never_fail_witness :
    load_latest "BV1" (fun _ => none) = none ∧
    load_by_profile "BV1" [] (fun _ => some .corrupt) = none :=
  ⟨(cache_reads_never_fail (fun _ => none) "BV1" []).1 rfl,
   (cache_reads_never_fail (fun _ => some .corrupt) "BV1" []).2.2.2 rfl⟩

/-- Sorting pairs by key gives the same list on any two permutations with
duplicate-free keys. -/
theorem sortFields_perm_eq {p q : List (String × JVal)}
    (hnod : (p.map Prod.fst).Nodup) (hperm : p.Perm q) :
    sortFields p = sortFields q := by
  have le_trans' : ∀ a b c : String × JVal,
      decide (a.1 ≤ b.1) = true → decide (b.1 ≤ c.1) = true →
        decide (a.1 ≤ c.1) = true := by
    intro a b c hab hbc
    simp only [decide_eq_true_eq] at *
    exact le_trans hab hbc
  have le_total' : ∀ a b : String × JVal,
      (decide (a.1 ≤ b.1) || decide (b.1 ≤ a.1)) = true := by
    intro a b
    simpa using le_total a.1 b.1
  haveI : IsAntisymm (String × JVal) (fun a b => a.1 < b.1 ∨ a = b) := by
    constructor
    intro a b hab hba
    rcases hab with h1 | rfl
    · rcases hba with h2 | h2
      · exact absurd h2 (lt_asymm h1)
      · exact h2.symm
    · rfl
  have hqnod : (q.map Prod.fst).Nodup := ((hperm.map Prod.fst).nodup_iff).mp hnod
  have key : ∀ r : List (String × JVal), (r.map Prod.fst).Nodup →
      List.Sorted (fun a b : String × JVal => a.1 < b.1 ∨ a = b) (sortFields r) := by
    intro r hr
    have hsorted := @List.sorted_mergeSort (String × JVal)
      (fun a b => decide (a.1 ≤ b.1)) le_trans' le_total' r
    have hpermr : (sortFields r).Perm r := List.mergeSort_perm r _
    have hnodup : ((sortFields r).map Prod.fst).Nodup :=
      ((hpermr.map Prod.fst).nodup_iff).mpr hr
    have hne : List.Pairwise (fun a b : String × JVal => a.1 ≠ b.1) (sortFields r) := by
      have := List.pairwise_map.mp hnodup
      exact this
    have hcomb := List.Pairwise.and hsorted hne
    refine hcomb.imp ?_
    intro a b hab
    exact Or.inl (lt_of_le_of_ne (by simpa using hab.1) hab.2)
  have hperm2 : (sortFields p).Perm (sortFields q) :=
    (List.mergeSort_perm p _).trans (hperm.trans (List.mergeSort_perm q _).symm)
  exact List.eq_of_perm_of_sorted hperm2 (key p hnod) (key q hqnod)

/-- C7.  Profile-hash key-order invariance: two profile dicts holding the
same key-value pairs in different insertion order (keys are unique in a
Python dict) hash identically, so `save_result` and `load_by_profile`
address the same entry. -/
theorem profile_hash_key_order_invariance (p q : PyDict)
    (hnod : (p.map Prod.fst).Nodup) (hperm : p.Perm q) :
    profile_hash p = profile_hash q := by
  unfold profile_hash
  have hsort : jsortKeys (.jobj p) = jsortKeys (.jobj q) := by
    simp only [jsortKeys]
    have hp := List.attach_map_val p (fun kv => (kv.1, jsortKeys kv.2))
    have hq := List.attach_map_val q (fun kv => (kv.1, jsortKeys kv.2))
    rw [hp, hq]
    have hnod2 : ((p.map (fun kv => (kv.1, jsortKeys kv.2))).map Prod.fst).Nodup := by
      rw [List.map_map]
      exact hnod
    exact congrArg JVal.jobj
      (sortFields_perm_eq hnod2 (hperm.map (fun kv => (kv.1, jsortKeys kv.2))))
  rw [hsort]

/-- Witness for C7: two two-field profiles with swapped insertion order. -/
theorem profile_hash_key_order_invariance_witness :
    profile_hash [("a", .jnum 1), ("b", .jnum 2)] =
      profile_hash [("b", .jnum 2), ("a", .jnum 1)] :=
  profile_hash_key_order_invariance _ _ (by decide) (List.Perm.swap _ _ _)

/-! ## Theorems: bilingual aligner -/

/-- C6.  Alignment overlap boundary: the inner loop pairs a zh segment with
the first en segment (in sorted order) whose overlap ratio strictly exceeds
0.75; a match rewrites the content to `zh + "\n" + en`; and at exactly 75%
overlap (zh [0,4], en [1,4], ratio 3/4) no merge happens, while the spec's
75.25% example (en [0.99,4]) merges. -/
theorem alignment_overlap_boundary :
    (∀ zh ens, findMatchingEn zh ens = ens.find? (fun en => overlapCond zh en)) ∧
    (∀ zh ens en, findMatchingEn zh ens = some en →
      alignOne zh ens = { zh with content := zh.content ++ "\n" ++ en.content }) ∧
    process_bilingual
        [⟨0, 4, "甲", "zh", (0, 0), 1, false⟩, ⟨1, 4, "B", "en", (0, 0), 1, false⟩] =
      [⟨0, 4, "甲", "zh", (0, 0), 1, false⟩] ∧
    process_bilingual
        [⟨0, 4, "甲", "zh", (0, 0), 1, false⟩,
         ⟨(99 : Rat)/100, 4, "B", "en", (0, 0), 1, false⟩] =
      [⟨0, 4, "甲\nB", "zh", (0, 0), 1, false⟩] := by
  refine ⟨?_, ?_, ?_, ?_⟩
  · intro zh ens
    induction ens with
    | nil => rfl
    | cons en rest ih =>
      unfold findMatchingEn
      rw [List.find?_cons]
      cases h : overlapCond zh en <;> simp [h, ih]
  · intro zh ens en h
    unfold alignOne
    rw [h]
  · simp [process_bilingual, List.filter, sortSegs, List.mergeSort_singleton, alignOne,
      findMatchingEn, overlapCond, overlapAmount]
    norm_num [max_def, min_def]
  · simp [process_bilingual, List.filter, sortSegs, List.mergeSort_singleton, alignOne,
      findMatchingEn, overlapCond, overlapAmount]
    norm_num [max_def, min_def]
    try decide

/-- Witness for C6: the merge formula at the concrete 75.25% example. -/
theorem alignment_overlap_boundary_witness :
    alignOne ⟨0, 4, "甲", "zh", (0, 0), 1, false⟩
        [⟨(99 : Rat)/100, 4, "B", "en", (0, 0), 1, false⟩] =
      ⟨0, 4, "甲\nB", "zh", (0, 0), 1, false⟩ := by
  have h := alignment_overlap_boundary.2.1
    (⟨0, 4, "甲", "zh", (0, 0), 1, false⟩ : SubtitleSegment)
    [⟨(99 : Rat)/100, 4, "B", "en", (0, 0), 1, false⟩]
    ⟨(99 : Rat)/100, 4, "B", "en", (0, 0), 1, false⟩
    (by norm_num [findMatchingEn, overlapCond, overlapAmount, max_def, min_def])
  rw [h]
  decide

/-! ## Theorems: pipeline coordinator -/

/-- C9.  Failed runs write nothing: whenever `run_pipeline` terminates with
an error (the missing-video precondition, a subtitle-read failure, a frame
sampling, VLM or summarisation failure, or a raising cache-hit tag), the
store it returns is exactly the store it was given — no cache entry is
written. -/
theorem failed_run_writes_nothing (inp : RunInputs) (st : Store) (e : String)
    (h : (run_pipeline inp st).1 = Except.error e) :
    (run_pipeline inp st).2 = st := by
  rcases hP : run_pipeline inp st with ⟨r, st2⟩
  rw [hP] at h
  dsimp only at h ⊢
  unfold run_pipeline executeStage at hP
  dsimp only at hP
  repeat' split at hP
  all_goals try (injection hP with h1 h2; exact h2.symm)
  all_goals (injection hP with h1 h2; rw [← h1] at h; exact absurd h (by simp))

/-- Witness for C9: a non-dry run with no video path aborts with the fatal
precondition error and leaves the (empty) store untouched. -/
theorem failed_run_writes_nothing_witness :
    (run_pipeline
        ⟨none, .ok "hello", "openrouter", "v", "l", "auto", 40, false, none,
         false, false, .ok 0, .ok .jnull, .ok .jnull, none, .ok ()⟩
        (fun _ => none)).1 = Except.error "非 dry-run 模式下必须提供 video_path" ∧
    (run_pipeline
        ⟨none, .ok "hello", "openrouter", "v", "l", "auto", 40, false, none,
         false, false, .ok 0, .ok .jnull, .ok .jnull, none, .ok ()⟩
        (fun _ => none)).2 = (fun _ => none) :=
  ⟨rfl, failed_run_writes_nothing _ _ "非 dry-run 模式下必须提供 video_path" rfl⟩

/-! ## Theorems: subtitle cleaner -/

/-- A safe character is not `'#'`, not `'—'`, not `'关'`. -/
theorem safeChar_spec {c : Char} (h : safeChar c = true) :
    c ≠ '#' ∧ c ≠ '—' ∧ c ≠ '关' := by
  simp only [safeChar, Bool.not_eq_eq_eq_not, Bool.not_true, Bool.or_eq_false_iff,
    beq_eq_false_iff_ne] at h
  exact ⟨h.1.1, h.1.2, h.2⟩

/-- The promo pattern cannot open at a safe character. -/
theorem startsWith_followKw_false {c : Char} (cs : List Char) (hc : safeChar c = true) :
    startsWithChars followKw (c :: cs) = false := by
  have hne : c ≠ '关' := (safeChar_spec hc).2.2
  have hkw : followKw = '关' :: '注' :: [] := rfl
  rw [hkw]
  simp only [startsWithChars, Bool.and_eq_false_iff]
  left
  exact beq_eq_false_iff_ne.mpr (Ne.symm hne)

/-- `re.sub(r"关注…获取更多精彩内容")` is the identity on safe strings. -/
theorem stripFollow_of_safe {l : List Char} (h : ∀ c ∈ l, safeChar c = true) :
    stripFollow l = l := by
  induction l with
  | nil => simp [stripFollow]
  | cons c cs ih =>
    have hkw := startsWith_followKw_false cs (h c (by simp))
    unfold stripFollow
    rw [hkw]
    simp only [Bool.false_eq_true, if_false, List.cons.injEq, true_and]
    exact ih (fun x hx => h x (List.mem_cons_of_mem _ hx))

/-- `re.sub(r"#.*?#")` is the identity on safe strings. -/
theorem stripHash_of_safe {l : List Char} (h : ∀ c ∈ l, safeChar c = true) :
    stripHash l = l := by
  induction l with
  | nil => simp [stripHash]
  | cons c cs ih =>
    have hc : (c == '#') = false :=
      beq_eq_false_iff_ne.mpr (safeChar_spec (h c (by simp))).1
    unfold stripHash
    rw [hc]
    simp only [Bool.false_eq_true, if_false, List.cons.injEq, true_and]
    exact ih (fun x hx => h x (List.mem_cons_of_mem _ hx))

/-- `re.sub(r"\s*—{2,}\s*")` is the identity on safe strings. -/
theorem stripDashes_of_safe {l : List Char} (h : ∀ c ∈ l, safeChar c = true) :
    stripDashes l = l := by
  induction l with
  | nil => simp [stripDashes]
  | cons c cs ih =>
    have hdash :
        (((c :: cs).dropWhile pyIsSpace).takeWhile (fun ch => ch == '—')) = [] := by
      cases hsp : (c :: cs).dropWhile pyIsSpace with
      | nil => rfl
      | cons d ds =>
        have hd : d ∈ (c :: cs) := (List.dropWhile_sublist pyIsSpace).subset
          (by rw [hsp]; exact List.mem_cons_self d ds)
        have : (d == '—') = false :=
          beq_eq_false_iff_ne.mpr (safeChar_spec (h d hd)).2.1
        simp [List.takeWhile_cons, this]
    unfold stripDashes
    simp only [hdash, List.length_nil]
    rw [if_neg (by omega)]
    simp only [List.cons.injEq, true_and]
    exact ih (fun x hx => h x (List.mem_cons_of_mem _ hx))

/-- Unfolding equation of `collapseWs` at a cons cell. -/
theorem collapseWs_cons (c : Char) (cs : List Char) :
    collapseWs (c :: cs) =
      if pyIsSpace c then ' ' :: collapseWs (cs.dropWhile pyIsSpace)
      else c :: collapseWs cs := by
  conv_lhs => rw [collapseWs.eq_def]

/-- The head of a `dropWhile` result never satisfies the dropped predicate. -/
theorem head?_dropWhile_false (p : Char → Bool) (l : List Char) :
    ∀ c, (l.dropWhile p).head? = some c → p c = false := by
  induction l with
  | nil => intro c hc; simp at hc
  | cons a as ih =>
    intro c hc
    rw [List.dropWhile_cons] at hc
    split at hc
    · exact ih c hc
    · rename_i hpa
      simp only [List.head?_cons, Option.some.injEq] at hc
      subst hc
      cases hpb : p a with
      | false => rfl
      | true => exact absurd hpb hpa

/-- `dropWhile` is the identity when the head does not satisfy `p`. -/
theorem dropWhile_eq_self_of_head {p : Char → Bool} {l : List Char}
    (h : ∀ c, l.head? = some c → p c = false) : l.dropWhile p = l := by
  cases l with
  | nil => rfl
  | cons a as =>
    rw [List.dropWhile_cons, if_neg]
    simp [h a rfl]

/-- The head of `collapseWs` is the head of the input, with whitespace
replaced by a space. -/
theorem collapseWs_head? (l : List Char) :
    (collapseWs l).head? = l.head?.map (fun c => if pyIsSpace c then ' ' else c) := by
  cases l with
  | nil => simp [collapseWs]
  | cons c cs =>
    unfold collapseWs
    split <;> simp [*]

/-- `collapseWs` output is whitespace-normal. -/
theorem wsNormed_collapseWs (l : List Char) : wsNormed (collapseWs l) = true := by
  induction l using collapseWs.induct with
  | case1 => simp [collapseWs, wsNormed]
  | case2 c rest hc ih =>
    rw [collapseWs_cons, if_pos hc]
    simp only [wsNormed, ih, Bool.and_true]
    have hhead : headNotSpace (collapseWs (rest.dropWhile pyIsSpace)) = true := by
      cases hX : collapseWs (rest.dropWhile pyIsSpace) with
      | nil => rfl
      | cons d ds =>
        have hd : (collapseWs (rest.dropWhile pyIsSpace)).head? = some d := by
          rw [hX]; rfl
        rw [collapseWs_head?] at hd
        cases hY : (rest.dropWhile pyIsSpace).head? with
        | none => rw [hY] at hd; simp at hd
        | some c0 =>
          rw [hY] at hd
          have hc0 : pyIsSpace c0 = false :=
            head?_dropWhile_false pyIsSpace rest c0 hY
          simp only [Option.map_some', Option.some.injEq, hc0, Bool.false_eq_true,
            if_false] at hd
          subst hd
          simp [headNotSpace, hc0]
    simp [hhead, pyIsSpace]
  | case3 c rest hc ih =>
    rw [collapseWs_cons, if_neg hc]
    simp only [wsNormed, ih, Bool.and_true]
    have : pyIsSpace c = false := by simpa using hc
    simp [this]

/-- `collapseWs` is the identity on whitespace-normal input. -/
theorem collapseWs_of_wsNormed {l : List Char} (h : wsNormed l = true) :
    collapseWs l = l := by
  induction l with
  | nil => simp [collapseWs]
  | cons c cs ih =>
    simp only [wsNormed, Bool.and_eq_true] at h
    obtain ⟨hcond, htail⟩ := h
    rw [collapseWs_cons]
    by_cases hc : pyIsSpace c = true
    · rw [if_pos hc]
      simp only [hc, Bool.not_true, Bool.false_or, Bool.and_eq_true, beq_iff_eq] at hcond
      obtain ⟨rfl, hhns⟩ := hcond
      have hdw : cs.dropWhile pyIsSpace = cs := by
        apply dropWhile_eq_self_of_head
        intro d hd
        cases cs with
        | nil => simp at hd
        | cons e es =>
          simp only [List.head?_cons, Option.some.injEq] at hd
          subst hd
          simpa [headNotSpace] using hhns
      rw [hdw, ih htail]
    · rw [if_neg hc, ih htail]

/-- `wsNormed` passes to the tail. -/
theorem wsNormed_tail {c : Char} {cs : List Char} (h : wsNormed (c :: cs) = true) :
    wsNormed cs = true := by
  simp only [wsNormed, Bool.and_eq_true] at h
  exact h.2

/-- `wsNormed` is preserved by `dropWhile`. -/
theorem wsNormed_dropWhile (p : Char → Bool) {l : List Char}
    (h : wsNormed l = true) : wsNormed (l.dropWhile p) = true := by
  induction l with
  | nil => simpa using h
  | cons c cs ih =>
    rw [List.dropWhile_cons]
    split
    · exact ih (wsNormed_tail h)
    · exact h

/-- `wsNormed` is preserved by removing a suffix. -/
theorem wsNormed_append_left {l₁ l₂ : List Char}
    (h : wsNormed (l₁ ++ l₂) = true) : wsNormed l₁ = true := by
  induction l₁ with
  | nil => rfl
  | cons c cs ih =>
    rw [List.cons_append] at h
    simp only [wsNormed, Bool.and_eq_true] at h ⊢
    refine ⟨?_, ih h.2⟩
    have hcond := h.1
    cases cs with
    | nil => simp [headNotSpace, Bool.or_eq_true] at hcond ⊢; tauto
    | cons d ds =>
      simpa [headNotSpace] using hcond

/-- `strip` is the identity when both ends are already clean. -/
theorem pyStrip_of_endsOk {l : List Char} (h : endsOk l) : pyStrip l = l := by
  unfold pyStrip
  have h1 : l.dropWhile pyIsSpace = l := dropWhile_eq_self_of_head h.1
  rw [h1]
  have h2 : l.reverse.dropWhile pyIsSpace = l.reverse := by
    apply dropWhile_eq_self_of_head
    intro c hc
    rw [List.head?_reverse] at hc
    exact h.2 c hc
  rw [h2, List.reverse_reverse]

/-- `pyStrip l` is a prefix of `l.dropWhile pyIsSpace`. -/
theorem pyStrip_prefix (l : List Char) :
    ∃ l₂, l.dropWhile pyIsSpace = pyStrip l ++ l₂ := by
  refine ⟨((l.dropWhile pyIsSpace).reverse.takeWhile pyIsSpace).reverse, ?_⟩
  unfold pyStrip
  conv_lhs => rw [← List.reverse_reverse (l.dropWhile pyIsSpace)]
  conv_lhs =>
    rw [← List.takeWhile_append_dropWhile pyIsSpace (l.dropWhile pyIsSpace).reverse]
  rw [List.reverse_append]

/-- `pyStrip` preserves whitespace-normal form. -/
theorem wsNormed_pyStrip {l : List Char} (h : wsNormed l = true) :
    wsNormed (pyStrip l) = true := by
  obtain ⟨l₂, hl⟩ := pyStrip_prefix l
  have hdw : wsNormed (l.dropWhile pyIsSpace) = true := wsNormed_dropWhile _ h
  rw [hl] at hdw
  exact wsNormed_append_left hdw

/-- Both ends of `pyStrip` output are clean. -/
theorem endsOk_pyStrip (l : List Char) : endsOk (pyStrip l) := by
  constructor
  · intro c hc
    obtain ⟨l₂, hl⟩ := pyStrip_prefix l
    have : (l.dropWhile pyIsSpace).head? = some c := by
      rw [hl]
      cases hs : pyStrip l with
      | nil => rw [hs] at hc; simp at hc
      | cons d ds =>
        rw [hs] at hc
        simp only [List.head?_cons, Option.some.injEq] at hc
        subst hc
        simp
    exact head?_dropWhile_false pyIsSpace l c this
  · intro c hc
    unfold pyStrip at hc
    rw [List.getLast?_reverse] at hc
    exact head?_dropWhile_false pyIsSpace (l.dropWhile pyIsSpace).reverse c hc

/-- Joining two whitespace-normal, end-clean lists with a single space stays
whitespace-normal. -/
theorem wsNormed_join {a b : List Char}
    (ha : wsNormed a = true) (hb : wsNormed b = true)
    (hlast : ∀ c, a.getLast? = some c → pyIsSpace c = false)
    (hhead : ∀ c, b.head? = some c → pyIsSpace c = false) :
    wsNormed (a ++ ' ' :: b) = true := by
  induction a with
  | nil =>
    simp only [List.nil_append, wsNormed, Bool.and_eq_true]
    refine ⟨?_, hb⟩
    have hns : headNotSpace b = true := by
      cases b with
      | nil => rfl
      | cons d ds => simpa [headNotSpace] using hhead d rfl
    simp [hns, pyIsSpace]
  | cons c cs ih =>
    rw [List.cons_append]
    simp only [wsNormed, Bool.and_eq_true] at ha ⊢
    cases cs with
    | nil =>
      have hcl : pyIsSpace c = false := hlast c rfl
      refine ⟨by simp [hcl], ?_⟩
      have := ih (by rfl) (fun d hd => by simp at hd)
      simpa using this
    | cons d ds =>
      refine ⟨?_, ?_⟩
      · simpa [headNotSpace] using ha.1
      · exact ih ha.2 (fun e he => hlast e (by rw [List.getLast?_cons_cons]; exact he))

/-- Characters of `collapseWs` output come from the input or are the space. -/
theorem mem_collapseWs {c : Char} (l : List Char) :
    c ∈ collapseWs l → c = ' ' ∨ c ∈ l := by
  induction l using collapseWs.induct with
  | case1 => intro h; simp [collapseWs] at h
  | case2 a rest ha ih =>
    intro h
    rw [collapseWs_cons, if_pos ha] at h
    rcases List.mem_cons.mp h with rfl | h2
    · exact Or.inl rfl
    · rcases ih h2 with h3 | h3
      · exact Or.inl h3
      · exact Or.inr (List.mem_cons_of_mem _ ((List.dropWhile_sublist _).subset h3))
  | case3 a rest ha ih =>
    intro h
    rw [collapseWs_cons, if_neg ha] at h
    rcases List.mem_cons.mp h with rfl | h2
    · exact Or.inr (List.mem_cons_self _ _)
    · rcases ih h2 with h3 | h3
      · exact Or.inl h3
      · exact Or.inr (List.mem_cons_of_mem _ h3)

/-- Characters of `pyStrip` output come from the input. -/
theorem pyStrip_subset (l : List Char) : ∀ c ∈ pyStrip l, c ∈ l := by
  intro c hc
  obtain ⟨l₂, hl⟩ := pyStrip_prefix l
  have : c ∈ l.dropWhile pyIsSpace := by
    rw [hl]
    exact List.mem_append_left _ hc
  exact (List.dropWhile_sublist _).subset this

/-- A string is empty exactly when its character list is. -/
theorem string_eq_empty_iff {s : String} : s = "" ↔ s.data = [] := by
  constructor
  · intro h; rw [h]
  · intro h
    cases s with
    | mk d => exact congrArg String.mk h

/-- On safe content the three removal passes vanish and cleaning is
collapse-then-strip. -/
theorem cleanContent_of_safe {s : String} (h : safeContent s = true) :
    cleanContent s = String.mk (pyStrip (collapseWs s.data)) := by
  have hall : ∀ c ∈ s.data, safeChar c = true := by
    simpa [safeContent, List.all_eq_true] using h
  unfold cleanContent
  rw [stripFollow_of_safe hall, stripHash_of_safe hall, stripDashes_of_safe hall]

/-- Cleaning safe content yields safe content. -/
theorem safeContent_cleanContent {s : String} (h : safeContent s = true) :
    safeContent (cleanContent s) = true := by
  have hall : ∀ c ∈ s.data, safeChar c = true := by
    simpa [safeContent, List.all_eq_true] using h
  rw [cleanContent_of_safe h]
  simp only [safeContent, List.all_eq_true]
  intro c hc
  have hc2 : c ∈ collapseWs s.data := pyStrip_subset _ c hc
  rcases mem_collapseWs _ hc2 with rfl | hc3
  · rfl
  · exact hall c hc3

/-- Cleaning safe content yields `GoodContent` whenever nonempty. -/
theorem goodContent_cleanContent {s : String} (h : safeContent s = true)
    (hne : cleanContent s ≠ "") : GoodContent (cleanContent s) := by
  have hsafe := safeContent_cleanContent h
  refine ⟨by simpa [safeContent] using hsafe, ?_, ?_, hne⟩
  · rw [cleanContent_of_safe h]
    exact wsNormed_pyStrip (wsNormed_collapseWs s.data)
  · rw [cleanContent_of_safe h]
    exact endsOk_pyStrip (collapseWs s.data)

/-- `cleanContent` is the identity on `GoodContent`. -/
theorem cleanContent_of_good {s : String} (h : GoodContent s) : cleanContent s = s := by
  obtain ⟨hsafe, hnorm, hends, hne⟩ := h
  rw [cleanContent_of_safe (by simpa [safeContent] using hsafe)]
  rw [collapseWs_of_wsNormed hnorm, pyStrip_of_endsOk hends]

/-- The merged content is the two contents joined by a single space. -/
theorem combineSegs_content_data (p c : SubtitleSegment) :
    (combineSegs p c).content.data = p.content.data ++ ' ' :: c.content.data := by
  show (p.content ++ " " ++ c.content).data = _
  rw [String.data_append, String.data_append]
  rw [List.append_assoc]
  rfl

/-- Merging two good segments yields a good content. -/
theorem goodContent_combine {p c : SubtitleSegment}
    (hp : GoodContent p.content) (hc : GoodContent c.content) :
    GoodContent (combineSegs p c).content := by
  obtain ⟨hps, hpn, hpe, hpne⟩ := hp
  obtain ⟨hcs, hcn, hce, hcne⟩ := hc
  have hpd : p.content.data ≠ [] := fun h => hpne (string_eq_empty_iff.mpr h)
  have hcd : c.content.data ≠ [] := fun h => hcne (string_eq_empty_iff.mpr h)
  have hdata := combineSegs_content_data p c
  refine ⟨?_, ?_, ⟨?_, ?_⟩, ?_⟩
  · rw [hdata]
    simp only [List.all_append, List.all_cons, Bool.and_eq_true]
    exact ⟨by simpa using hps, by decide, by simpa using hcs⟩
  · rw [hdata]
    exact wsNormed_join hpn hcn hpe.2 hce.1
  · intro ch hch
    rw [hdata, List.head?_append_of_ne_nil _ hpd] at hch
    exact hpe.1 ch hch
  · intro ch hch
    rw [hdata, List.getLast?_append_of_ne_nil _ (by simp)] at hch
    cases hcl : c.content.data with
    | nil => exact absurd hcl hcd
    | cons e es =>
      rw [hcl, List.getLast?_cons_cons] at hch
      apply hce.2
      rw [hcl]
      exact hch
  · intro he
    have := string_eq_empty_iff.mp he
    rw [hdata] at this
    exact hpd (List.append_eq_nil.mp this).1

/-- Head of the merge loop output: same start, content at least as long. -/
theorem mergeAdjacent_head (prev : SubtitleSegment) (rest : List SubtitleSegment) :
    ∀ q, (mergeAdjacent prev rest).head? = some q →
      q.start = prev.start ∧ prev.content.length ≤ q.content.length := by
  induction rest generalizing prev with
  | nil =>
    intro q hq
    simp only [mergeAdjacent, List.head?_cons, Option.some.injEq] at hq
    subst hq
    exact ⟨rfl, le_refl _⟩
  | cons curr rs ih =>
    intro q hq
    unfold mergeAdjacent at hq
    split at hq
    · have hlen : prev.content.length ≤ (combineSegs prev curr).content.length := by
        show prev.content.length ≤ (prev.content ++ " " ++ curr.content).length
        rw [String.length_append, String.length_append]
        omega
      obtain ⟨h1, h2⟩ := ih (combineSegs prev curr) q hq
      exact ⟨h1, le_trans hlen h2⟩
    · simp only [List.head?_cons, Option.some.injEq] at hq
      subst hq
      exact ⟨rfl, le_refl _⟩

/-- The merge loop leaves no adjacent mergeable pair behind. -/
theorem mergeAdjacent_chain (prev : SubtitleSegment) (rest : List SubtitleSegment) :
    List.Chain' (fun a b => ¬ mergeCond a b) (mergeAdjacent prev rest) := by
  induction rest generalizing prev with
  | nil => simp [mergeAdjacent]
  | cons curr rs ih =>
    unfold mergeAdjacent
    split
    · exact ih (combineSegs prev curr)
    · rename_i hnc
      rw [List.chain'_cons']
      refine ⟨?_, ih curr⟩
      intro q hq
      obtain ⟨hstart, hlen⟩ := mergeAdjacent_head curr rs q hq
      intro hcontra
      obtain ⟨ht, hl1, hl2⟩ := hcontra
      rw [hstart] at ht
      exact hnc ⟨ht, hl1, lt_of_le_of_lt hlen hl2⟩

/-- The merge loop is the identity on chains with no mergeable pair. -/
theorem mergeAdjacent_of_chain (prev : SubtitleSegment) (rest : List SubtitleSegment)
    (h : List.Chain' (fun a b => ¬ mergeCond a b) (prev :: rest)) :
    mergeAdjacent prev rest = prev :: rest := by
  induction rest generalizing prev with
  | nil => rfl
  | cons curr rs ih =>
    rw [List.chain'_cons] at h
    unfold mergeAdjacent
    rw [if_neg h.1]
    rw [ih curr h.2]

/-- The merge loop preserves goodness of all contents. -/
theorem mergeAdjacent_good (prev : SubtitleSegment) (rest : List SubtitleSegment)
    (hp : GoodContent prev.content) (hr : ∀ s ∈ rest, GoodContent s.content) :
    ∀ s ∈ mergeAdjacent prev rest, GoodContent s.content := by
  induction rest generalizing prev with
  | nil =>
    intro s hs
    simp only [mergeAdjacent, List.mem_singleton] at hs
    subst hs
    exact hp
  | cons curr rs ih =>
    intro s hs
    unfold mergeAdjacent at hs
    split at hs
    · exact ih (combineSegs prev curr)
        (goodContent_combine hp (hr curr (by simp)))
        (fun x hx => hr x (List.mem_cons_of_mem _ hx)) s hs
    · rcases List.mem_cons.mp hs with rfl | hs2
      · exact hp
      · exact ih curr (hr curr (by simp))
          (fun x hx => hr x (List.mem_cons_of_mem _ hx)) s hs2

/-- The first cleaning phase is the identity on good segments. -/
theorem cleanSegments_of_good (l : List SubtitleSegment)
    (h : ∀ s ∈ l, GoodContent s.content) : cleanSegments l = l := by
  induction l with
  | nil => rfl
  | cons s rest ih =>
    have hg := h s (by simp)
    unfold cleanSegments
    dsimp only
    rw [cleanContent_of_good hg, if_neg hg.2.2.2]
    rw [ih (fun x hx => h x (List.mem_cons_of_mem _ hx))]

/-- The first cleaning phase turns safe inputs into good segments. -/
theorem cleanSegments_good (l : List SubtitleSegment)
    (h : ∀ s ∈ l, safeContent s.content = true) :
    ∀ s ∈ cleanSegments l, GoodContent s.content := by
  induction l with
  | nil => intro s hs; simp [cleanSegments] at hs
  | cons a rest ih =>
    intro s hs
    unfold cleanSegments at hs
    dsimp only at hs
    by_cases he : cleanContent a.content = ""
    · rw [if_pos he] at hs
      exact ih (fun x hx => h x (List.mem_cons_of_mem _ hx)) s hs
    · rw [if_neg he] at hs
      rcases List.mem_cons.mp hs with rfl | hs2
      · exact goodContent_cleanContent (h a (by simp)) he
      · exact ih (fun x hx => h x (List.mem_cons_of_mem _ hx)) s hs2

unseal stripFollow stripHash stripDashes collapseWs in
/-- C3 counterexample: the claim `clean(clean(segments)) == clean(segments)`
fails on the code.  On the single segment with content `"a— ——— —b"` the
dash pass removes `" ——— "`, gluing the two outer dashes into a new `"——"`
that only the second application removes: one pass yields `"a——b"`, two
passes yield `"ab"`. -/
theorem clean_not_idempotent :
    clean_subtitle (clean_subtitle [⟨0, 1, "a— ——— —b", "zh", (0, 0), 1, false⟩]) ≠
      clean_subtitle [⟨0, 1, "a— ——— —b", "zh", (0, 0), 1, false⟩] := by
  decide

/-- C3 (amended).  Cleaning is idempotent on every segment list whose
contents contain none of the regex-trigger characters `'#'`, `'—'` and
`'关'`: one pass leaves such contents whitespace-normal and stripped, the
further passes change nothing, and the merge loop never leaves an adjacent
mergeable pair behind. -/
theorem clean_idempotent_on_safe (l : List SubtitleSegment)
    (h : ∀ s ∈ l, safeContent s.content = true) :
    clean_subtitle (clean_subtitle l) = clean_subtitle l := by
  have hgood1 := cleanSegments_good l h
  unfold clean_subtitle
  cases hcs : cleanSegments l with
  | nil => rfl
  | cons s rest =>
    show (match cleanSegments (mergeAdjacent s rest) with
          | [] => []
          | s2 :: r2 => mergeAdjacent s2 r2) = mergeAdjacent s rest
    have hgoodm : ∀ x ∈ mergeAdjacent s rest, GoodContent x.content := by
      apply mergeAdjacent_good
      · exact hgood1 s (by rw [hcs]; simp)
      · intro x hx
        exact hgood1 x (by rw [hcs]; exact List.mem_cons_of_mem _ hx)
    rw [cleanSegments_of_good _ hgoodm]
    have hchain := mergeAdjacent_chain s rest
    cases hma : mergeAdjacent s rest with
    | nil => rfl
    | cons s2 r2 =>
      rw [hma] at hchain
      exact mergeAdjacent_of_chain s2 r2 hchain

/-- Witness for the amended C3 on a concrete safe segment list. -/
theorem clean_idempotent_on_safe_witness :
    clean_subtitle (clean_subtitle
        [⟨0, 1, "hello  world", "zh", (0, 0), 1, false⟩,
         ⟨(6 : Rat)/5, 2, "ok", "zh", (0, 0), 1, false⟩]) =
      clean_subtitle
        [⟨0, 1, "hello  world", "zh", (0, 0), 1, false⟩,
         ⟨(6 : Rat)/5, 2, "ok", "zh", (0, 0), 1, false⟩] :=
  clean_idempotent_on_safe _ (by decide)

end BiliSub
